import Mathlib

/-!
Shallow embedding of the bull call spread analysis script (`main.py`).

Conventions of the embedding:
* Python floats become exact rationals (`ℚ`); the single irrational
  operation, `np.sqrt`, becomes `Real.sqrt` on the cast of the rational
  variance (`sdOf`).
* The quote dictionary `call_prices` becomes an association list; indexing
  `d[k]` becomes `lookupQuote`, whose `none` stands for a `KeyError`.
* The enumeration loop, which can raise an uncaught `KeyError`, becomes an
  `Except Unit`-valued recursion over the list of valid strike pairs;
  `Except.error ()` is the aborted run.
* A label `chr(ord('A') + index_label)` is recorded by its code point
  `65 + index_label` (Python `chr` is injective on its domain, so the code
  point identifies the label character).
-/

/-- A price scenario of the source's `scenarios` table: a terminal price and
its probability. -/
structure Scenario where
  price : ℚ
  prob : ℚ
deriving DecidableEq

/-- The source's scenario distribution (`scenarios` in `main.py`):
bull 25350 with 0.20, base 24000 with 0.60, bear 21250 with 0.20. -/
def scenarios : List Scenario :=
  [⟨25350, 1/5⟩, ⟨24000, 3/5⟩, ⟨21250, 1/5⟩]

/-- Source constant `annual_rf_rate = 0.0342`. -/
def annual_rf_rate : ℚ := 342 / 10000

/-- Source constant `months_to_expiry = 1`. -/
def months_to_expiry : ℕ := 1

/-- Source constant `monthly_rf_rate = annual_rf_rate / 12`. -/
def monthly_rf_rate : ℚ := annual_rf_rate / 12

/-- The option chain `call_prices` (strike, premium) in the source's key
order. -/
def call_prices : List (ℚ × ℚ) :=
  [(21000, 2478), (21200, 2292), (21400, 2111), (21600, 1933), (21800, 1761),
   (22000, 1594), (22200, 1434), (22400, 1175), (22600, 1124), (22800, 884),
   (23000, 780), (23200, 645), (23400, 575), (23600, 476), (23800, 400),
   (24000, 341), (24200, 307), (24400, 236), (24600, 210), (24800, 165),
   (25000, 130), (25200, 101), (25400, 88), (25600, 75), (25800, 67),
   (26000, 47), (26200, 39), (26400, 31), (26600, 35), (26800, 20),
   (27000, 16), (27200, 13), (27400, 11), (27600, 9), (27800, 8),
   (28000, 8), (28200, 7), (28400, 6), (28600, 5), (28800, 4),
   (29000, 3), (29200, 1), (29400, 1), (29600, 1)]

/-- Source list `lower_strike_candidates`. -/
def lower_strike_candidates : List ℚ :=
  [22000, 22400, 22800, 23200, 23600, 24000, 24400, 24800]

/-- Source list `upper_strike_candidates`. -/
def upper_strike_candidates : List ℚ :=
  [24200, 24600, 25000, 25400, 25800, 26200, 26600, 27000]

/-- Function `bull_call_spread_payoff` from the source: long call at `lower_strike`
plus short call at `upper_strike`, evaluated at expiry. -/
def bull_call_spread_payoff (final_price lower_strike upper_strike : ℚ) : ℚ :=
  let long_call_payoff := max (final_price - lower_strike) 0
  let short_call_payoff := -(max (final_price - upper_strike) 0)
  long_call_payoff + short_call_payoff

/-- Python dictionary indexing `quotes[k]`: the first binding of key `k`,
`none` when the key is absent (a `KeyError` in the source). -/
def lookupQuote : List (ℚ × ℚ) → ℚ → Option ℚ
  | [], _ => none
  | (k, v) :: rest, s => if s = k then some v else lookupQuote rest s

/-- Function `future_value_of_spread_cost`: the net premium
`call_prices[lower_strike] - call_prices[upper_strike]` compounded one
period by `(1 + monthly_rate)`. `none` models the `KeyError` raised when a
strike is missing from the table. -/
def future_value_of_spread_cost (quotes : List (ℚ × ℚ))
    (lower_strike upper_strike monthly_rate : ℚ) : Option ℚ :=
  match lookupQuote quotes lower_strike, lookupQuote quotes upper_strike with
  | some ql, some qu =>
    let cost_now := ql - qu
    some (cost_now * (1 + monthly_rate))
  | _, _ => none

/-- The per-candidate evaluation body of the source's enumeration loop:
the list `payoffs` of net scenario payoffs (spread payoff minus the future
value of the cost), the probability-weighted `expected_profit`, and the
probability-weighted population variance `var` accumulated over the zipped
scenario/payoff pairs. The pair returned is `(expected_profit, var)`; the
source's `sd = np.sqrt(var)` is `sdOf` applied to the second component. -/
def evalSpread (scens : List Scenario) (ls us cost_future_value : ℚ) : ℚ × ℚ :=
  let payoffs := scens.map fun scen =>
    bull_call_spread_payoff scen.price ls us - cost_future_value
  let expected_profit := ((scens.zip payoffs).map fun p => p.1.prob * p.2).sum
  let var := ((scens.zip payoffs).map fun p => p.1.prob * (p.2 - expected_profit) ^ 2).sum
  (expected_profit, var)

/-- The source's `sd = np.sqrt(var)`. -/
noncomputable def sdOf (v : ℚ) : ℝ := Real.sqrt (v : ℝ)

/-- One entry of the source's `results` list. `label` is the code point
`ord('A') + index_label` of the label character; `var` is the variance whose
square root the source stores as `sd`. -/
structure RawResult where
  label : ℕ
  lower_strike : ℚ
  upper_strike : ℚ
  expected_profit : ℚ
  var : ℚ
deriving DecidableEq

/-- The pairs the nested loops evaluate, in iteration order: outer loop over
`lowers` in list order, inner loop over `uppers` in list order, keeping a
pair exactly when `us > ls`. -/
def validPairs (lowers uppers : List ℚ) : List (ℚ × ℚ) :=
  lowers.flatMap fun ls => (uppers.filter fun us => us > ls).map fun us => (ls, us)

/-- The enumeration loop over the remaining valid pairs, `idx` the running
`index_label`. A missing quote raises (`Except.error ()`), aborting the
run as an uncaught `KeyError` does. -/
def enumAux (quotes : List (ℚ × ℚ)) (scens : List Scenario) (rate : ℚ) :
    List (ℚ × ℚ) → ℕ → Except Unit (List RawResult)
  | [], _ => Except.ok []
  | (ls, us) :: rest, idx =>
    match future_value_of_spread_cost quotes ls us rate with
    | none => Except.error ()
    | some cost_future_value =>
      let ev := evalSpread scens ls us cost_future_value
      match enumAux quotes scens rate rest (idx + 1) with
      | Except.error e => Except.error e
      | Except.ok rs => Except.ok (⟨65 + idx, ls, us, ev.1, ev.2⟩ :: rs)

/-- Sections 1–2 of the script: enumerate all candidate pairs with
`us > ls` and accumulate the labelled evaluation results. -/
def enumerateResults (lowers uppers : List ℚ) (quotes : List (ℚ × ℚ))
    (scens : List Scenario) (rate : ℚ) : Except Unit (List RawResult) :=
  enumAux quotes scens rate (validPairs lowers uppers) 0

/-- A result as the selection loop of section 4 reads it: expected profit
and standard deviation in a linear ordered field `α` (`ℝ` for the program,
where the standard deviation is a square root). -/
structure SpreadResult (α : Type) where
  label : ℕ
  lower_strike : ℚ
  upper_strike : ℚ
  expected_profit : α
  sd : α
deriving DecidableEq

/-- One iteration of the selection loop: skip a result whose `sd` is `0`,
otherwise replace the best candidate exactly when its ratio strictly
exceeds the best ratio so far. -/
def selectStep [LinearOrderedField α] [DecidableEq α]
    (acc : Option (SpreadResult α) × α) (r : SpreadResult α) :
    Option (SpreadResult α) × α :=
  if r.sd = 0 then acc
  else if r.expected_profit / r.sd > acc.2 then (some r, r.expected_profit / r.sd)
  else acc

/-- Section 4 of the script: `best_combo = None; best_ratio = -999;` then the
loop over `results`. -/
def findBestCombo [LinearOrderedField α] [DecidableEq α]
    (results : List (SpreadResult α)) : Option (SpreadResult α) × α :=
  results.foldl selectStep (none, -999)

/-- Attach the stored `sd = np.sqrt(var)` to a raw enumeration entry. -/
noncomputable def toResult (r : RawResult) : SpreadResult ℝ :=
  ⟨r.label, r.lower_strike, r.upper_strike, (r.expected_profit : ℝ),
    Real.sqrt (r.var : ℝ)⟩

/-- The final `if best_combo: ... else: ...` of the script, modelled by the
first line each branch prints. -/
def reportLine (best : Option (SpreadResult ℝ)) : String :=
  match best with
  | some _ => "Optimal combination based on (Expected Profit/SD) ratio:"
  | none => "No valid combination found."

/-! ### Helper lemmas about the enumeration -/

/-- The nested loop enumerates the filtered Cartesian product in order. -/
lemma validPairs_product (lowers uppers : List ℚ) :
    validPairs lowers uppers =
      (lowers.product uppers).filter fun pr => pr.1 < pr.2 := by
  unfold validPairs List.product
  rw [List.filter_flatMap]
  congr 1
  funext ls
  rw [List.filter_map]
  rfl

/-- Every enumerated pair satisfies the spread constraint. -/
lemma validPairs_lt {lowers uppers : List ℚ} {pr : ℚ × ℚ}
    (h : pr ∈ validPairs lowers uppers) : pr.1 < pr.2 := by
  rw [validPairs_product, List.mem_filter] at h
  exact of_decide_eq_true h.2

/-- A successful enumeration pass: every accumulated result comes from one of
the given pairs, with a cost the quote table yields and the evaluator's
expected profit and variance at that cost. -/
lemma enumAux_ok_mem (quotes : List (ℚ × ℚ)) (scens : List Scenario) (rate : ℚ)
    (pairs : List (ℚ × ℚ)) :
    ∀ (idx : ℕ) (rs : List RawResult),
      enumAux quotes scens rate pairs idx = Except.ok rs →
      ∀ r ∈ rs, (r.lower_strike, r.upper_strike) ∈ pairs ∧
        ∃ c, future_value_of_spread_cost quotes r.lower_strike r.upper_strike rate =
            some c ∧
          r.expected_profit = (evalSpread scens r.lower_strike r.upper_strike c).1 ∧
          r.var = (evalSpread scens r.lower_strike r.upper_strike c).2 := by
  induction pairs with
  | nil =>
    intro idx rs h r hr
    simp only [enumAux] at h
    cases h
    simp at hr
  | cons head rest ih =>
    obtain ⟨ls, us⟩ := head
    intro idx rs h r hr
    simp only [enumAux] at h
    rcases hcost : future_value_of_spread_cost quotes ls us rate with _ | c <;>
      rw [hcost] at h
    · exact absurd h (by simp)
    rcases hrec : enumAux quotes scens rate rest (idx + 1) with e | rs' <;>
      rw [hrec] at h
    · exact absurd h (by simp)
    simp only [Except.ok.injEq] at h
    subst h
    rcases List.mem_cons.1 hr with hr | hr
    · subst hr
      exact ⟨List.mem_cons_self _ _, c, hcost, rfl, rfl⟩
    · obtain ⟨hmem, hrest⟩ := ih (idx + 1) rs' hrec r hr
      exact ⟨List.mem_cons_of_mem _ hmem, hrest⟩

/-- The i-th result of a successful pass starting at running index `idx`
carries label code `65 + idx + i`. -/
lemma enumAux_ok_label (quotes : List (ℚ × ℚ)) (scens : List Scenario) (rate : ℚ)
    (pairs : List (ℚ × ℚ)) :
    ∀ (idx : ℕ) (rs : List RawResult),
      enumAux quotes scens rate pairs idx = Except.ok rs →
      ∀ (i : ℕ) (h : i < rs.length), (rs.get ⟨i, h⟩).label = 65 + idx + i := by
  induction pairs with
  | nil =>
    intro idx rs h i hi
    simp only [enumAux] at h
    cases h
    simp at hi
  | cons head rest ih =>
    obtain ⟨ls, us⟩ := head
    intro idx rs h i hi
    simp only [enumAux] at h
    rcases hcost : future_value_of_spread_cost quotes ls us rate with _ | c <;>
      rw [hcost] at h
    · exact absurd h (by simp)
    rcases hrec : enumAux quotes scens rate rest (idx + 1) with e | rs' <;>
      rw [hrec] at h
    · exact absurd h (by simp)
    simp only [Except.ok.injEq] at h
    subst h
    match i with
    | 0 => rfl
    | i + 1 =>
      have h2 := ih (idx + 1) rs' hrec i (by simpa using hi)
      simp only [List.get_eq_getElem, List.getElem_cons_succ] at h2 ⊢
      omega

/-- A pair whose cost lookup fails aborts the whole pass with an error. -/
lemma enumAux_error (quotes : List (ℚ × ℚ)) (scens : List Scenario) (rate : ℚ)
    (pairs : List (ℚ × ℚ)) :
    ∀ (idx : ℕ) (l u : ℚ), (l, u) ∈ pairs →
      future_value_of_spread_cost quotes l u rate = none →
      enumAux quotes scens rate pairs idx = Except.error () := by
  induction pairs with
  | nil => intro idx l u hmem _; simp at hmem
  | cons head rest ih =>
    obtain ⟨a, b⟩ := head
    intro idx l u hmem hnone
    rcases List.mem_cons.1 hmem with heq | hmem'
    · obtain ⟨rfl, rfl⟩ := Prod.mk.injEq .. ▸ heq
      simp [enumAux, hnone]
    · simp only [enumAux]
      rcases hc : future_value_of_spread_cost quotes a b rate with _ | c
      · rfl
      · rw [ih (idx + 1) l u hmem' hnone]

/-! ### Helper lemmas about the payoff -/

/-- For `L ≤ U` the spread payoff is the long-call payoff capped at the
strike width. -/
lemma payoff_eq_min (p L U : ℚ) (h : L ≤ U) :
    bull_call_spread_payoff p L U = min (max (p - L) 0) (U - L) := by
  simp only [bull_call_spread_payoff]
  rcases le_total p U with hpU | hpU
  · rw [max_eq_right (by linarith : p - U ≤ 0),
      min_eq_left (max_le (by linarith) (by linarith))]
    ring
  · rw [max_eq_left (by linarith : (0 : ℚ) ≤ p - U),
      max_eq_left (by linarith : (0 : ℚ) ≤ p - L),
      min_eq_right (by linarith)]
    ring

/-! ### Claim theorems about payoff and cost -/

/-- C4. Payoff model: for `U > L` the payoff equals
`max(p - L, 0) - max(p - U, 0)` and lies in `[0, U - L]`. -/
theorem payoff_formula_and_bounds (p L U : ℚ) (h : L < U) :
    bull_call_spread_payoff p L U = max (p - L) 0 - max (p - U) 0 ∧
    0 ≤ bull_call_spread_payoff p L U ∧
    bull_call_spread_payoff p L U ≤ U - L := by
  refine ⟨by simp [bull_call_spread_payoff, sub_eq_add_neg], ?_, ?_⟩ <;>
    rw [payoff_eq_min p L U h.le]
  · exact le_min (le_max_right _ _) (by linarith)
  · exact min_le_right _ _

/-- Witness for C4 at `p = 120`, `L = 100`, `U = 150`. -/
theorem payoff_formula_and_bounds_witness :
    bull_call_spread_payoff 120 100 150 = max (120 - 100) 0 - max (120 - 150) 0 ∧
    0 ≤ bull_call_spread_payoff 120 100 150 ∧
    bull_call_spread_payoff 120 100 150 ≤ 150 - 100 :=
  payoff_formula_and_bounds 120 100 150 (by norm_num)

/-- C9. Payoff monotonicity: for `U > L` the payoff is non-decreasing in the
final price. -/
theorem payoff_monotone (L U p1 p2 : ℚ) (hLU : L < U) (hp : p1 ≤ p2) :
    bull_call_spread_payoff p1 L U ≤ bull_call_spread_payoff p2 L U := by
  rw [payoff_eq_min p1 L U hLU.le, payoff_eq_min p2 L U hLU.le]
  exact min_le_min (max_le_max (by linarith) le_rfl) le_rfl

/-- Witness for C9 at `L = 100`, `U = 150`, `p1 = 110 ≤ p2 = 140`. -/
theorem payoff_monotone_witness :
    bull_call_spread_payoff 110 100 150 ≤ bull_call_spread_payoff 140 100 150 :=
  payoff_monotone 100 150 110 140 (by norm_num) (by norm_num)

/-- C3. Cost model: with both strikes quoted, the future cost is the net
premium compounded one period, and with rate `0` it is exactly the net
premium. -/
theorem futureCost_formula (quotes : List (ℚ × ℚ)) (L U rate ql qu : ℚ)
    (hL : lookupQuote quotes L = some ql) (hU : lookupQuote quotes U = some qu) :
    future_value_of_spread_cost quotes L U rate = some ((ql - qu) * (1 + rate)) ∧
    future_value_of_spread_cost quotes L U 0 = some (ql - qu) := by
  unfold future_value_of_spread_cost
  rw [hL, hU]
  exact ⟨rfl, by norm_num⟩

/-- Witness for C3 on the table `{100 ↦ 5, 150 ↦ 2}` with rate `1/100`. -/
theorem futureCost_formula_witness :
    future_value_of_spread_cost [(100, 5), (150, 2)] 100 150 (1 / 100) =
      some ((5 - 2) * (1 + 1 / 100)) ∧
    future_value_of_spread_cost [(100, 5), (150, 2)] 100 150 0 = some (5 - 2) :=
  futureCost_formula [(100, 5), (150, 2)] 100 150 (1 / 100) 5 2 (by decide) (by decide)

/-- C5. Enumeration: the loop nest walks `lowers × uppers` in given order
keeping exactly the pairs with `upper > lower`; every accumulated result
satisfies `upper_strike > lower_strike`; for `lower = [100, 200]` and
`upper = [150, 100]` only `(100, 150)` is evaluated. -/
theorem enumeration_pairs_spec :
    (∀ lowers uppers : List ℚ,
      validPairs lowers uppers =
        (lowers.product uppers).filter fun pr => pr.1 < pr.2) ∧
    (∀ (lowers uppers : List ℚ) (quotes : List (ℚ × ℚ)) (scens : List Scenario)
      (rate : ℚ) (rs : List RawResult),
      enumerateResults lowers uppers quotes scens rate = Except.ok rs →
      ∀ r ∈ rs, r.lower_strike < r.upper_strike) ∧
    validPairs [100, 200] [150, 100] = [(100, 150)] := by
  refine ⟨validPairs_product, ?_, by decide⟩
  intro lowers uppers quotes scens rate rs h r hr
  exact validPairs_lt
    (enumAux_ok_mem quotes scens rate (validPairs lowers uppers) 0 rs h r hr).1

/-- C10. Label assignment: in any completed enumeration the i-th result's
label code is `ord('A') + i`, labels are pairwise distinct, index 0 maps to
the character `'A'`, and index 26 maps to `'['`, which is not an uppercase
letter. -/
theorem label_assignment_spec :
    (∀ (lowers uppers : List ℚ) (quotes : List (ℚ × ℚ)) (scens : List Scenario)
      (rate : ℚ) (rs : List RawResult),
      enumerateResults lowers uppers quotes scens rate = Except.ok rs →
      (∀ (i : ℕ) (h : i < rs.length), (rs.get ⟨i, h⟩).label = 65 + i) ∧
      ∀ (i j : ℕ) (hi : i < rs.length) (hj : j < rs.length),
        (rs.get ⟨i, hi⟩).label = (rs.get ⟨j, hj⟩).label → i = j) ∧
    Char.toNat 'A' = 65 ∧
    Char.ofNat (65 + 0) = 'A' ∧
    Char.ofNat (65 + 26) = '[' ∧
    ¬ (Char.ofNat (65 + 26)).isUpper := by
  refine ⟨?_, by decide, by decide, by decide, by decide⟩
  intro lowers uppers quotes scens rate rs h
  have hlab := enumAux_ok_label quotes scens rate (validPairs lowers uppers) 0 rs h
  constructor
  · intro i hi
    have := hlab i hi
    omega
  · intro i j hi hj hij
    have h1 := hlab i hi
    have h2 := hlab j hj
    omega

/-! ### Helper lemmas about the evaluator -/

/-- Summing `prob * value` over the zip of a scenario list with its mapped
payoffs equals summing directly over the scenarios. -/
lemma zip_map_sum_mul (l : List Scenario) (g : Scenario → ℚ) :
    ((l.zip (l.map g)).map fun p => p.1.prob * p.2).sum =
      (l.map fun s => s.prob * g s).sum := by
  induction l with
  | nil => rfl
  | cons a t ih => simp [ih]

/-- The variance accumulation over the zip, in direct form. -/
lemma zip_map_sum_sq (l : List Scenario) (g : Scenario → ℚ) (m : ℚ) :
    ((l.zip (l.map g)).map fun p => p.1.prob * (p.2 - m) ^ 2).sum =
      (l.map fun s => s.prob * (g s - m) ^ 2).sum := by
  induction l with
  | nil => rfl
  | cons a t ih => simp [ih]

/-- The evaluator in closed form: expected profit is the weighted sum of net
payoffs, variance the weighted sum of squared deviations from it. -/
lemma evalSpread_eq (scens : List Scenario) (ls us c : ℚ) :
    evalSpread scens ls us c =
      ((scens.map fun s => s.prob * (bull_call_spread_payoff s.price ls us - c)).sum,
        (scens.map fun s => s.prob * ((bull_call_spread_payoff s.price ls us - c) -
          (scens.map fun s =>
            s.prob * (bull_call_spread_payoff s.price ls us - c)).sum) ^ 2).sum) := by
  simp only [evalSpread]
  rw [zip_map_sum_mul, zip_map_sum_sq]

/-- C2. Scenario evaluator: net payoff is payoff minus the once-computed
cost; expected profit is the probability-weighted sum of net payoffs;
variance is the probability-weighted sum of squared deviations (population
variance); the reported standard deviation is the square root of the
variance; and every enumerated result is the evaluator's output at the
cost computed once from the quote table for its pair. -/
theorem evaluator_spec (scens : List Scenario) (ls us cost : ℚ) :
    (evalSpread scens ls us cost).1 =
      (scens.map fun s => s.prob * (bull_call_spread_payoff s.price ls us - cost)).sum ∧
    (evalSpread scens ls us cost).2 =
      (scens.map fun s => s.prob * ((bull_call_spread_payoff s.price ls us - cost) -
        (evalSpread scens ls us cost).1) ^ 2).sum ∧
    sdOf (evalSpread scens ls us cost).2 =
      Real.sqrt ((evalSpread scens ls us cost).2 : ℝ) ∧
    (∀ (lowers uppers : List ℚ) (quotes : List (ℚ × ℚ)) (rate : ℚ)
      (rs : List RawResult),
      enumerateResults lowers uppers quotes scens rate = Except.ok rs →
      ∀ r ∈ rs,
        ∃ c, future_value_of_spread_cost quotes r.lower_strike r.upper_strike rate =
            some c ∧
          r.expected_profit = (evalSpread scens r.lower_strike r.upper_strike c).1 ∧
          r.var = (evalSpread scens r.lower_strike r.upper_strike c).2) := by
  have he := evalSpread_eq scens ls us cost
  refine ⟨?_, ?_, rfl, ?_⟩
  · rw [he]
  · rw [he]
  · intro lowers uppers quotes rate rs h r hr
    exact (enumAux_ok_mem quotes scens rate (validPairs lowers uppers) 0 rs h r hr).2

/-- C8 counterexample: with quote table empty, the pair `(100, 150)` is
enumerated but the run aborts with a lookup error instead of skipping the
candidate and continuing. -/
theorem missing_quote_counterexample :
    validPairs [100] [150] = [(100, 150)] ∧
    lookupQuote [] 100 = none ∧
    enumerateResults [100] [150] [] scenarios monthly_rf_rate = Except.error () :=
  ⟨by decide, rfl, rfl⟩

/-- C8 as the code has it: a valid candidate pair with either strike absent
from the quote table makes the whole enumeration abort with the lookup
error; nothing is skipped. -/
theorem missing_quote_aborts (lowers uppers : List ℚ) (quotes : List (ℚ × ℚ))
    (scens : List Scenario) (rate : ℚ) (l u : ℚ)
    (hmem : (l, u) ∈ validPairs lowers uppers)
    (hmiss : lookupQuote quotes l = none ∨ lookupQuote quotes u = none) :
    enumerateResults lowers uppers quotes scens rate = Except.error () := by
  have hnone : future_value_of_spread_cost quotes l u rate = none := by
    unfold future_value_of_spread_cost
    rcases hmiss with h | h <;> rw [h]
    cases lookupQuote quotes l <;> rfl
  exact enumAux_error quotes scens rate (validPairs lowers uppers) 0 l u hmem hnone

/-- Witness for C8's amended statement: one valid pair, empty quote table. -/
theorem missing_quote_aborts_witness :
    enumerateResults [100] [200] [] scenarios monthly_rf_rate = Except.error () :=
  missing_quote_aborts [100] [200] [] scenarios monthly_rf_rate 100 200
    (by decide) (Or.inl rfl)

/-! ### Helper lemmas for the standard deviation -/

/-- Weighted sum of a function constant on the scenarios of nonzero
probability. -/
lemma weighted_sum_const (l : List Scenario) (f : Scenario → ℚ) (c : ℚ)
    (h : ∀ s ∈ l, s.prob ≠ 0 → f s = c) :
    (l.map fun s => s.prob * f s).sum = c * (l.map Scenario.prob).sum := by
  induction l with
  | nil => simp
  | cons a t ih =>
    have ht := ih fun s hs hp => h s (List.mem_cons_of_mem _ hs) hp
    simp only [List.map_cons, List.sum_cons, ht, mul_add]
    by_cases hp : a.prob = 0
    · rw [hp]; ring
    · rw [h a (List.mem_cons_self a t) hp]; ring

/-- If every scenario has probability `0`, the probabilities sum to `0`. -/
lemma prob_sum_zero (l : List Scenario) (h : ∀ s ∈ l, s.prob = 0) :
    (l.map Scenario.prob).sum = 0 := by
  induction l with
  | nil => simp
  | cons a t ih =>
    simp only [List.map_cons, List.sum_cons,
      h a (List.mem_cons_self a t),
      ih fun s hs => h s (List.mem_cons_of_mem _ hs)]
    ring

/-- C6. For every candidate, under nonnegative probabilities summing to one,
the reported standard deviation is nonnegative, and it is zero exactly when
the net payoff is identical across all scenarios of nonzero probability. -/
theorem sd_nonneg_and_zero_iff (scens : List Scenario) (ls us cost : ℚ)
    (hprob : ∀ s ∈ scens, 0 ≤ s.prob)
    (hsum : (scens.map Scenario.prob).sum = 1) :
    0 ≤ sdOf (evalSpread scens ls us cost).2 ∧
    (sdOf (evalSpread scens ls us cost).2 = 0 ↔
      ∀ s1 ∈ scens, ∀ s2 ∈ scens, s1.prob ≠ 0 → s2.prob ≠ 0 →
        bull_call_spread_payoff s1.price ls us - cost =
          bull_call_spread_payoff s2.price ls us - cost) := by
  refine ⟨Real.sqrt_nonneg _, ?_⟩
  have hveq : (evalSpread scens ls us cost).2 =
      (scens.map fun s => s.prob * ((bull_call_spread_payoff s.price ls us - cost) -
        (scens.map fun s =>
          s.prob * (bull_call_spread_payoff s.price ls us - cost)).sum) ^ 2).sum := by
    rw [evalSpread_eq]
  have hterm : ∀ x ∈ (scens.map fun s =>
      s.prob * ((bull_call_spread_payoff s.price ls us - cost) -
        (scens.map fun s =>
          s.prob * (bull_call_spread_payoff s.price ls us - cost)).sum) ^ 2), 0 ≤ x := by
    intro x hx
    obtain ⟨s, hs, rfl⟩ := List.mem_map.1 hx
    exact mul_nonneg (hprob s hs) (sq_nonneg _)
  have hv0 : 0 ≤ (evalSpread scens ls us cost).2 := by
    rw [hveq]; exact List.sum_nonneg hterm
  have hsd : sdOf (evalSpread scens ls us cost).2 = 0 ↔
      (evalSpread scens ls us cost).2 = 0 := by
    unfold sdOf
    rw [Real.sqrt_eq_zero']
    constructor
    · intro hle
      exact le_antisymm (by exact_mod_cast hle) hv0
    · intro h0
      rw [h0]; simp
  rw [hsd]
  constructor
  · intro hzero s1 hs1 s2 hs2 hp1 hp2
    have hz : ∀ s ∈ scens,
        s.prob * ((bull_call_spread_payoff s.price ls us - cost) -
          (scens.map fun s =>
            s.prob * (bull_call_spread_payoff s.price ls us - cost)).sum) ^ 2 = 0 := by
      intro s hs
      exact List.all_zero_of_le_zero_le_of_sum_eq_zero hterm (hveq ▸ hzero)
        (List.mem_map_of_mem _ hs)
    have hnet : ∀ s ∈ scens, s.prob ≠ 0 →
        bull_call_spread_payoff s.price ls us - cost =
          (scens.map fun s =>
            s.prob * (bull_call_spread_payoff s.price ls us - cost)).sum := by
      intro s hs hp
      rcases mul_eq_zero.1 (hz s hs) with h | h
      · exact absurd h hp
      · exact sub_eq_zero.1 (pow_eq_zero_iff two_ne_zero |>.1 h)
    rw [hnet s1 hs1 hp1, hnet s2 hs2 hp2]
  · intro hpair
    have hex : ∃ s ∈ scens, s.prob ≠ 0 := by
      by_contra hno
      push_neg at hno
      rw [prob_sum_zero scens hno] at hsum
      norm_num at hsum
    obtain ⟨s0, hs0, hp0⟩ := hex
    have hconst : ∀ s ∈ scens, s.prob ≠ 0 →
        bull_call_spread_payoff s.price ls us - cost =
          bull_call_spread_payoff s0.price ls us - cost :=
      fun s hs hp => hpair s hs s0 hs0 hp hp0
    have hmean : (scens.map fun s =>
        s.prob * (bull_call_spread_payoff s.price ls us - cost)).sum =
          bull_call_spread_payoff s0.price ls us - cost := by
      have hw := weighted_sum_const scens
        (fun s => bull_call_spread_payoff s.price ls us - cost)
        (bull_call_spread_payoff s0.price ls us - cost) hconst
      rw [hsum, mul_one] at hw
      exact hw
    rw [hveq]
    apply List.sum_eq_zero
    intro x hx
    obtain ⟨s, hs, rfl⟩ := List.mem_map.1 hx
    by_cases hp : s.prob = 0
    · rw [hp]; ring
    · rw [hmean, hconst s hs hp]; ring

/-- Witness for C6 at the source's scenarios and the spec's concrete
fixture candidate `(22000, 24200)` with cost `1287`. -/
theorem sd_nonneg_and_zero_iff_witness :
    0 ≤ sdOf (evalSpread scenarios 22000 24200 1287).2 ∧
    (sdOf (evalSpread scenarios 22000 24200 1287).2 = 0 ↔
      ∀ s1 ∈ scenarios, ∀ s2 ∈ scenarios, s1.prob ≠ 0 → s2.prob ≠ 0 →
        bull_call_spread_payoff s1.price 22000 24200 - 1287 =
          bull_call_spread_payoff s2.price 22000 24200 - 1287) :=
  sd_nonneg_and_zero_iff scenarios 22000 24200 1287 (by norm_num [scenarios])
    (by norm_num [scenarios])

/-! ### Helper lemmas about the selection loop -/

/-- Full characterization of the selection fold from any accumulator:
either no valid ratio strictly exceeds the running best and the accumulator
survives, or the fold returns the first result attaining the strictly
greatest ratio above it. -/
lemma selectStep_foldl_spec {α : Type} [LinearOrderedField α] [DecidableEq α] :
    ∀ (l : List (SpreadResult α)) (o : Option (SpreadResult α)) (b : α),
      (l.foldl selectStep (o, b) = (o, b) ∧
        ∀ r ∈ l, r.sd ≠ 0 → r.expected_profit / r.sd ≤ b) ∨
      (∃ pre r post, l = pre ++ r :: post ∧ r.sd ≠ 0 ∧
        b < r.expected_profit / r.sd ∧
        l.foldl selectStep (o, b) = (some r, r.expected_profit / r.sd) ∧
        (∀ x ∈ pre, x.sd ≠ 0 →
          x.expected_profit / x.sd < r.expected_profit / r.sd) ∧
        (∀ y ∈ post, y.sd ≠ 0 →
          y.expected_profit / y.sd ≤ r.expected_profit / r.sd)) := by
  intro l
  induction l with
  | nil => intro o b; left; exact ⟨rfl, by simp⟩
  | cons h t ih =>
    intro o b
    by_cases hsd : h.sd = 0
    · have hstep : selectStep (o, b) h = (o, b) := by simp [selectStep, hsd]
      rcases ih o b with ⟨heq, hall⟩ |
        ⟨pre, r, post, hsplit, hrsd, hlt, hfold, hpre, hpost⟩
      · left
        refine ⟨by simp [List.foldl_cons, hstep, heq], ?_⟩
        intro x hx hxsd
        rcases List.mem_cons.1 hx with rfl | hx'
        · exact absurd hsd hxsd
        · exact hall x hx' hxsd
      · right
        refine ⟨h :: pre, r, post, by rw [hsplit]; rfl, hrsd, hlt,
          by simp [List.foldl_cons, hstep, hfold], ?_, hpost⟩
        intro x hx hxsd
        rcases List.mem_cons.1 hx with rfl | hx'
        · exact absurd hsd hxsd
        · exact hpre x hx' hxsd
    · by_cases hgt : b < h.expected_profit / h.sd
      · have hstep : selectStep (o, b) h = (some h, h.expected_profit / h.sd) := by
          simp [selectStep, hsd, hgt]
        rcases ih (some h) (h.expected_profit / h.sd) with ⟨heq, hall⟩ |
          ⟨pre, r, post, hsplit, hrsd, hlt, hfold, hpre, hpost⟩
        · right
          exact ⟨[], h, t, rfl, hsd, hgt,
            by simp [List.foldl_cons, hstep, heq], by simp, hall⟩
        · right
          refine ⟨h :: pre, r, post, by rw [hsplit]; rfl, hrsd,
            lt_trans hgt hlt, by simp [List.foldl_cons, hstep, hfold], ?_, hpost⟩
          intro x hx hxsd
          rcases List.mem_cons.1 hx with rfl | hx'
          · exact hlt
          · exact hpre x hx' hxsd
      · have hstep : selectStep (o, b) h = (o, b) := by
          simp [selectStep, hsd, hgt]
        have hle : h.expected_profit / h.sd ≤ b := not_lt.1 hgt
        rcases ih o b with ⟨heq, hall⟩ |
          ⟨pre, r, post, hsplit, hrsd, hlt, hfold, hpre, hpost⟩
        · left
          refine ⟨by simp [List.foldl_cons, hstep, heq], ?_⟩
          intro x hx hxsd
          rcases List.mem_cons.1 hx with rfl | hx'
          · exact hle
          · exact hall x hx' hxsd
        · right
          refine ⟨h :: pre, r, post, by rw [hsplit]; rfl, hrsd, hlt,
            by simp [List.foldl_cons, hstep, hfold], ?_, hpost⟩
          intro x hx hxsd
          rcases List.mem_cons.1 hx with rfl | hx'
          · exact lt_of_le_of_lt hle hlt
          · exact hpre x hx' hxsd

/-- A list whose results all have `sd = 0` is skipped entirely. -/
lemma foldl_selectStep_skip {α : Type} [LinearOrderedField α] [DecidableEq α] :
    ∀ (l : List (SpreadResult α)), (∀ r ∈ l, r.sd = 0) →
      ∀ acc, l.foldl selectStep acc = acc := by
  intro l
  induction l with
  | nil => intro _ acc; rfl
  | cons h t ih =>
    intro hz acc
    have hstep : selectStep acc h = acc := by
      simp [selectStep, hz h (List.mem_cons_self h t)]
    rw [List.foldl_cons, hstep]
    exact ih (fun r hr => hz r (List.mem_cons_of_mem _ hr)) acc

/-- C1 (amended). The selection loop: a `none` outcome means every result
with nonzero sd has ratio at most the sentinel `-999`; a selected result has
nonzero sd, ratio strictly above `-999`, is reported with its ratio, beats
every earlier valid result strictly and every later valid result weakly
(first-encountered wins ties). -/
theorem selection_spec (results : List (SpreadResult ℝ)) :
    ((findBestCombo results).1 = none →
      ∀ r ∈ results, r.sd ≠ 0 → r.expected_profit / r.sd ≤ -999) ∧
    (∀ r, (findBestCombo results).1 = some r →
      r.sd ≠ 0 ∧ -999 < r.expected_profit / r.sd ∧
      (findBestCombo results).2 = r.expected_profit / r.sd ∧
      ∃ pre post, results = pre ++ r :: post ∧
        (∀ x ∈ pre, x.sd ≠ 0 →
          x.expected_profit / x.sd < r.expected_profit / r.sd) ∧
        (∀ y ∈ post, y.sd ≠ 0 →
          y.expected_profit / y.sd ≤ r.expected_profit / r.sd)) := by
  unfold findBestCombo
  rcases selectStep_foldl_spec results none (-999 : ℝ) with ⟨heq, hall⟩ |
    ⟨pre, r, post, hsplit, hrsd, hlt, hfold, hpre, hpost⟩
  · rw [heq]
    refine ⟨fun _ => hall, ?_⟩
    intro r hr
    exact absurd hr (by simp)
  · rw [hfold]
    refine ⟨by intro hnone; simp at hnone, ?_⟩
    intro r' hr'
    simp only [Option.some.injEq] at hr'
    subst hr'
    exact ⟨hrsd, hlt, rfl, pre, post, hsplit, hpre, hpost⟩

/-- C1 counterexample: a single result with positive sd but ratio `-1000`
below the `-999` sentinel is not selected, although it has the strictly
greatest ratio among results with positive sd. -/
theorem selection_sentinel_counterexample :
    (0 : ℝ) < (⟨0, 0, 0, -1000, 1⟩ : SpreadResult ℝ).sd ∧
    (findBestCombo [(⟨0, 0, 0, -1000, 1⟩ : SpreadResult ℝ)]).1 = none := by
  constructor
  · norm_num
  · norm_num [findBestCombo, selectStep]

/-- C7. If the valid pair set is empty, or no evaluated candidate has
positive standard deviation, a completed run selects nothing and reports
the "no valid combination found" line. -/
theorem no_viable_selection (lowers uppers : List ℚ) (quotes : List (ℚ × ℚ))
    (scens : List Scenario) (rate : ℚ) (rs : List RawResult)
    (hok : enumerateResults lowers uppers quotes scens rate = Except.ok rs)
    (hcase : validPairs lowers uppers = [] ∨
      ∀ r ∈ rs.map toResult, ¬ (0 < r.sd)) :
    (findBestCombo (rs.map toResult)).1 = none ∧
    reportLine (findBestCombo (rs.map toResult)).1 = "No valid combination found." := by
  have hnone : (findBestCombo (rs.map toResult)).1 = none := by
    rcases hcase with hemp | hsd
    · unfold enumerateResults at hok
      rw [hemp] at hok
      simp only [enumAux, Except.ok.injEq] at hok
      subst hok
      rfl
    · have hz : ∀ r ∈ rs.map toResult, r.sd = 0 := by
        intro r hr
        have hnonneg : 0 ≤ r.sd := by
          obtain ⟨r0, _, rfl⟩ := List.mem_map.1 hr
          simp [toResult]
        exact le_antisymm (not_lt.1 (hsd r hr)) hnonneg
      unfold findBestCombo
      rw [foldl_selectStep_skip _ hz]
  exact ⟨hnone, by rw [hnone]; rfl⟩

/-- Witness for C7: one lower candidate, no upper candidates, empty quote
table — the run completes with no results and reports the message. -/
theorem no_viable_selection_witness :
    (findBestCombo (([] : List RawResult).map toResult)).1 = none ∧
    reportLine (findBestCombo (([] : List RawResult).map toResult)).1 =
      "No valid combination found." :=
  no_viable_selection [100] [] [] scenarios 0 [] rfl (Or.inl rfl)

example : lookupQuote call_prices 22000 = some 1594 := by decide
example : validPairs [100, 200] [150, 100] = [(100, 150)] := by decide
example : bull_call_spread_payoff 25350 22000 24200 = 2200 := by
  norm_num [bull_call_spread_payoff]
example : future_value_of_spread_cost call_prices 22000 24200 0 = some 1287 := by
  norm_num [future_value_of_spread_cost, lookupQuote, call_prices]
example : (evalSpread scenarios 22000 24200 1287).1 = 353 := by
  norm_num [evalSpread, scenarios, bull_call_spread_payoff]
